import Mathlib

/-!
Verification development for the course-discovery client core
(lms/static/js/discovery): the result/facet merge algorithm of the
course-discovery Backbone model (its parse method) and the coordinator
event wiring of discovery_factory.js.  JavaScript objects are embedded as
insertion-ordered association lists with unique keys; JavaScript
truthiness is modelled explicitly where the code branches on it, and the
one reachable TypeError site of parse is modelled by an error flag.
-/

namespace Discovery

/-! ### Insertion-ordered string-keyed maps (JavaScript objects) -/

/-- JavaScript-object lookup: first entry with the given key. -/
def lookup : List (String × α) → String → Option α
  | [], _ => none
  | (k, v) :: rest, k2 => if k = k2 then some v else lookup rest k2

/-- JavaScript property assignment: replace the value in place if the key
exists, otherwise append the new key at the end (insertion order). -/
def setEntry : List (String × α) → String → α → List (String × α)
  | [], k2, v2 => [(k2, v2)]
  | (k, v) :: rest, k2, v2 =>
    if k = k2 then (k, v2) :: rest else (k, v) :: setEntry rest k2 v2

/-- JavaScript delete of a property. -/
def eraseEntry (m : List (String × α)) (k : String) : List (String × α) :=
  m.filter (fun p => p.1 ≠ k)

/-- Object.keys: keys in insertion order. -/
def keysOf (m : List (String × α)) : List String :=
  m.map (·.1)

/-- Numeric read with JavaScript default: `(m[k] || 0)`. -/
def cnt (m : List (String × Nat)) (k : String) : Nat :=
  (lookup m k).getD 0

/-! ### Sorting of term keys (JavaScript Array.prototype.sort on strings) -/

/-- Boolean lexicographic comparison of character lists. -/
def charListLeb : List Char → List Char → Bool
  | [], _ => true
  | _ :: _, [] => false
  | a :: as, b :: bs =>
    if a < b then true
    else if b < a then false
    else charListLeb as bs

/-- Boolean lexicographic comparison of strings, as JavaScript
compares strings in the default sort. -/
def strLeb (a b : String) : Bool := charListLeb a.toList b.toList

/-- Insert a string into a sorted list of strings. -/
def insertKey (t : String) : List String → List String
  | [] => [t]
  | u :: us => if strLeb t u then t :: u :: us else u :: insertKey t us

/-- Sort a list of strings ascending lexicographically, as the source
does with `_.keys(obj.terms).sort()`. -/
def sortKeys : List String → List String
  | [] => []
  | k :: ks => insertKey k (sortKeys ks)

/-! ### Data model of the course-discovery Backbone model -/

/-- Attribute value of a result document, as far as the merge inspects
it: absent (or null), a scalar string (falsy when empty), or an array of
strings (always truthy). -/
inductive AttrValue where
  | undef : AttrValue
  | str : String → AttrValue
  | arr : List String → AttrValue
deriving DecidableEq

/-- JavaScript truthiness of an attribute value. -/
def AttrValue.truthy : AttrValue → Bool
  | .undef => false
  | .str s => s ≠ ""
  | .arr _ => true

/-- One result document: the course wrapper with its `data` attributes
object, as delivered by the search transport. -/
structure Course where
  data : List (String × AttrValue)
deriving DecidableEq

/-- One well-formed server aggregation entry:
`{terms: {term: count}, total, other}`. -/
structure FacetEntry where
  terms : List (String × Nat)
  total : Nat
  other : Nat
deriving DecidableEq

/-- Value stored under one category key of the server `aggs` object.  A
well-formed entry, or malformed junk: `junkFalsy` stands for a falsy
primitive (0, empty string, false), `junkTruthy` for a truthy value
whose `.terms` property is undefined (a number, a nonempty string, an
object without terms). -/
inductive AggValue where
  | entry : FacetEntry → AggValue
  | junkFalsy : AggValue
  | junkTruthy : AggValue
deriving DecidableEq

/-- JavaScript truthiness of an aggregation value. -/
def AggValue.truthy : AggValue → Bool
  | .junkFalsy => false
  | _ => true

/-- Reading `.terms` of an aggregation value where the merge only needs
its keys: for junk values the property is undefined and `_.keys` of
undefined is the empty list. -/
def termsOf : AggValue → List (String × Nat)
  | .entry e => e.terms
  | _ => []

/-- FacetOption — Modelled from the spec: the model file
js/discovery/models/facet_option is not part of the sources; per the
spec it is one (facet, term, count) value object, unique by
(facet, term) in the owning collection. -/
structure FacetOption where
  facet : String
  term : String
  count : Nat
deriving DecidableEq

/-- Server response as consumed by parse: `response.results` and
`response.aggs`, each possibly absent. -/
structure Response where
  results : Option (List Course)
  aggs : Option (List (String × AggValue))
deriving DecidableEq

/-- State owned by the course-discovery model: the two counts and the
two owned collections. -/
structure DiscoveryState where
  totalCount : Nat
  latestCount : Nat
  courseCards : List (List (String × AttrValue))
  facetOptions : List FacetOption
deriving DecidableEq

/-- Backbone reset of the model: zero both counts and empty both owned
collections. -/
def DiscoveryState.reset (_st : DiscoveryState) : DiscoveryState :=
  { totalCount := 0, latestCount := 0, courseCards := [], facetOptions := [] }

/-! ### The merge algorithm: parse of the course-discovery model -/

/-- Test `course.data.course_type === 'video'`. -/
def isVideoDoc (data : List (String × AttrValue)) : Bool :=
  match lookup data "course_type" with
  | some (.str s) => s = "video"
  | _ => false

/-- Page-local predicate of parse: on the /videos page keep only video
documents, elsewhere exclude them. -/
def pagePred (isVideosPage : Bool) (c : Course) : Bool :=
  if isVideosPage then isVideoDoc c.data else !isVideoDoc c.data

/-- Remove-unwanted-facets step of parse: on the /videos page delete the
whole course_type aggregation entry when truthy; elsewhere delete the
video term of course_type when the chain
`facets.course_type && facets.course_type.terms && facets.course_type.terms.video`
is truthy. -/
def stripFacets (isVideosPage : Bool) (facets : List (String × AggValue)) :
    List (String × AggValue) :=
  if isVideosPage then
    match lookup facets "course_type" with
    | some v => if v.truthy then eraseEntry facets "course_type" else facets
    | none => facets
  else
    match lookup facets "course_type" with
    | some (.entry e) =>
      match lookup e.terms "video" with
      | some n =>
        if n ≠ 0 then
          setEntry facets "course_type"
            (.entry { e with terms := eraseEntry e.terms "video" })
        else facets
      | none => facets
    | _ => facets

/-- One tally increment: `allFacets[ft][value] = (allFacets[ft][value] || 0) + 1`. -/
def tallyInc (m : List (String × Nat)) (k : String) : List (String × Nat) :=
  setEntry m k (cnt m k + 1)

/-- Contribution of one attribute value of one document to the local
tally of its category, following the truthiness and array branches of
the source. -/
def tallyValue (m : List (String × Nat)) : AttrValue → List (String × Nat)
  | .str s => tallyInc m s
  | .arr ss => ss.foldl tallyInc m
  | .undef => m

/-- Process one document for one facet type in the local tally. -/
def tallyDocFacet (acc : List (String × List (String × Nat)))
    (data : List (String × AttrValue)) (ft : String) :
    List (String × List (String × Nat)) :=
  match lookup data ft with
  | none => acc
  | some v =>
    if v.truthy then
      setEntry acc ft (tallyValue ((lookup acc ft).getD []) v)
    else acc

/-- Process one document across all facet types. -/
def tallyDoc (fts : List String) (acc : List (String × List (String × Nat)))
    (data : List (String × AttrValue)) : List (String × List (String × Nat)) :=
  fts.foldl (fun a ft => tallyDocFacet a data ft) acc

/-- The local facet tally `allFacets`: one empty object per facet type,
then one pass over the surviving documents. -/
def tallyAll (fts : List String) (courses : List Course) :
    List (String × List (String × Nat)) :=
  courses.foldl (fun acc c => tallyDoc fts acc c.data) (fts.map (fun ft => (ft, [])))

/-- Sum of the term counts: `_.reduce(_.values(values), +, 0)`. -/
def sumCounts (values : List (String × Nat)) : Nat :=
  (values.map (·.2)).foldl (· + ·) 0

/-- Merge the local per-term counts of one category into the server
terms object: absent or zero (falsy) server count is assigned the local
count, a nonzero server count is increased by it. -/
def mergeTerms (ts : List (String × Nat)) (values : List (String × Nat)) :
    List (String × Nat) :=
  values.foldl
    (fun ts tc =>
      match lookup ts tc.1 with
      | none => setEntry ts tc.1 tc.2
      | some n => if n = 0 then setEntry ts tc.1 tc.2 else setEntry ts tc.1 (n + tc.2))
    ts

/-- One iteration of the merge loop over `allFacets`.  A falsy server
value is replaced by a synthesized entry built from the local tally; on
a truthy junk value reading `facets[ft].terms[term]` throws a TypeError
as soon as the local tally has a term, modelled as an error. -/
def mergeStep (fs : List (String × AggValue)) (ftv : String × List (String × Nat)) :
    Except Unit (List (String × AggValue)) :=
  match lookup fs ftv.1 with
  | none => .ok (setEntry fs ftv.1 (.entry ⟨ftv.2, sumCounts ftv.2, 0⟩))
  | some .junkFalsy => .ok (setEntry fs ftv.1 (.entry ⟨ftv.2, sumCounts ftv.2, 0⟩))
  | some .junkTruthy => if ftv.2.isEmpty then .ok fs else .error ()
  | some (.entry e) =>
    .ok (setEntry fs ftv.1 (.entry { e with terms := mergeTerms e.terms ftv.2 }))

/-- The whole merge loop over the local tally. -/
def mergeFacets (fs : List (String × AggValue))
    (allF : List (String × List (String × Nat))) :
    Except Unit (List (String × AggValue)) :=
  allF.foldlM mergeStep fs

/-- Upsert of one FacetOption — Modelled from the spec: a Backbone add
with merge on the facetOptions collection overwrites the count of the
existing (facet, term) model, or appends a new one. -/
def upsertOption : List FacetOption → FacetOption → List FacetOption
  | [], o => [o]
  | p :: rest, o =>
    if p.facet = o.facet ∧ p.term = o.term then { p with count := o.count } :: rest
    else p :: upsertOption rest o

/-- Sequence of options added for one merged category, term keys sorted
ascending: `_.keys(obj.terms).sort()` then one add per term. -/
def categoryAdds (kv : String × AggValue) : List FacetOption :=
  (sortKeys (keysOf (termsOf kv.2))).map
    (fun t => ⟨kv.1, t, cnt (termsOf kv.2) t⟩)

/-- Upserts for one category applied to the options collection. -/
def addCategory (opts : List FacetOption) (kv : String × AggValue) :
    List FacetOption :=
  (categoryAdds kv).foldl upsertOption opts

/-- The add-facet-options loop of parse over the merged facets object. -/
def addOptions (opts : List FacetOption) (facets : List (String × AggValue)) :
    List FacetOption :=
  facets.foldl addCategory opts

/-- The parse method of the course-discovery model: filter the page by
the route predicate, append survivors and set both counts, strip the
course_type facet, tally the survivors, merge the tally into the server
aggregation and upsert the facet options.  The returned flag is true
when the merge loop throws a TypeError; mutations made before the throw
(cards and counts) persist, the options collection is then untouched. -/
def parse (isVideosPage : Bool) (st : DiscoveryState) (resp : Response) :
    DiscoveryState × Bool :=
  let courses := (resp.results.getD []).filter (pagePred isVideosPage)
  let st1 : DiscoveryState :=
    { st with
      courseCards := st.courseCards ++ courses.map Course.data
      totalCount := courses.length
      latestCount := courses.length }
  let facets := stripFacets isVideosPage (resp.aggs.getD [])
  let allF := tallyAll (keysOf facets) courses
  match mergeFacets facets allF with
  | .error _ => (st1, true)
  | .ok merged => ({ st1 with facetOptions := addOptions st1.facetOptions merged }, false)

/-! ### Coordinator: filter set and event handlers of discovery_factory -/

/-- One active refinement term, `{type, query, name}`. -/
structure FilterTerm where
  type : String
  query : String
  name : String
deriving DecidableEq

/-- FilterSet — Modelled from the spec: the collection file
js/discovery/collections/filters is not part of the sources; per the
spec it is an insertion-ordered collection of FilterTerm unique by type. -/
abbrev FilterSet := List FilterTerm

/-- Filters get by category — Modelled from the spec: returns the term
or not-found. -/
def FilterSet.get (fs : FilterSet) (t : String) : Option FilterTerm :=
  fs.find? (fun term => term.type = t)

/-- Filters remove by category — Modelled from the spec: delete by key,
no-op when absent. -/
def FilterSet.remove (fs : FilterSet) (t : String) : FilterSet :=
  fs.filter (fun term => term.type ≠ t)

/-- Filters add — Modelled from the spec: keyed by type; with merge an
existing entry is overwritten in place, without merge a duplicate add is
ignored (Backbone collection semantics); a new key is appended. -/
def FilterSet.add (fs : FilterSet) (term : FilterTerm) (merge : Bool) : FilterSet :=
  match fs with
  | [] => [term]
  | p :: rest =>
    if p.type = term.type then (if merge then term :: rest else p :: rest)
    else p :: FilterSet.add rest term merge

/-- Filters getTerms — Modelled from the spec: the ordered sequence of
stored terms. -/
def FilterSet.getTerms (fs : FilterSet) : List FilterTerm := fs

/-- Message shown by the search form view. -/
inductive Msg where
  | noMsg : Msg
  | found : Nat → Msg
  | notFound : String → Msg
  | errorMsg : String → Msg
deriving DecidableEq

/-- Observable coordinator state: the filter set plus the passive view
state the handlers drive (message and loading indicator). -/
structure CoordState where
  filters : FilterSet
  message : Msg
  loading : Bool
deriving DecidableEq

/-- Request the handlers hand to SearchState after updating filters. -/
inductive SearchAction where
  | noAction : SearchAction
  | doSearch : String → SearchAction
  | refineSearch : List FilterTerm → SearchAction
deriving DecidableEq

/-- Wrap a string in double quotes, the quote helper of the factory. -/
def quote (s : String) : String := "\"" ++ s ++ "\""

/-- The removeFilter utility: show the loading indicator, drop the
category, then re-run an empty fresh search for the free-text category
or a refine search with the remaining terms. -/
def removeFilter (st : CoordState) (type : String) : CoordState × SearchAction :=
  let st1 : CoordState := { st with loading := true }
  let st2 : CoordState := { st1 with filters := st1.filters.remove type }
  if type = "search_query" then (st2, .doSearch "")
  else (st2, .refineSearch st2.filters.getTerms)

/-- The handleQueryParams utility, also run when a refinement option is
selected: an already active category is removed, otherwise the term is
added (without merge) and a refine search issued with the new term list. -/
def handleQueryParams (st : CoordState) (type query name : String) :
    CoordState × SearchAction :=
  let st1 : CoordState := { st with loading := true }
  match st1.filters.get type with
  | some _ => removeFilter st1 type
  | none =>
    let fs := st1.filters.add ⟨type, query, name⟩ false
    ({ st1 with filters := fs }, .refineSearch fs.getTerms)

/-- The listener on the search event of SearchState: positive total
shows the found message and re-adds (with merge) the quoted free-text
query as a synthetic search_query filter when one is active; zero total
shows the not-found message and resets the filters; both paths hide the
loading indicator. -/
def onSearchEvent (st : CoordState) (query : String) (total : Nat) : CoordState :=
  let st1 : CoordState :=
    if total > 0 then
      let st2 : CoordState := { st with message := .found total }
      if query ≠ "" then
        { st2 with filters := st2.filters.add ⟨"search_query", query, quote query⟩ true }
      else st2
    else
      { st with message := .notFound query, filters := [] }
  { st1 with loading := false }

/-! ### Derived definitions used in the specification statements -/

/-- Lookup of the count of a (facet, term) pair in the options
collection. -/
def optLookup : List FacetOption → String → String → Option Nat
  | [], _, _ => none
  | p :: rest, f, t =>
    if p.facet = f ∧ p.term = t then some p.count else optLookup rest f t

/-- Value a category holds after one merge-loop iteration, as a function
of the server value it had and the local tally of the category. -/
def mergedValue : Option AggValue → List (String × Nat) → AggValue
  | none, values => .entry ⟨values, sumCounts values, 0⟩
  | some .junkFalsy, values => .entry ⟨values, sumCounts values, 0⟩
  | some .junkTruthy, _ => .junkTruthy
  | some (.entry e), values => .entry { e with terms := mergeTerms e.terms values }

/-- Occurrences of a term inside one attribute value: one for a matching
scalar, one per matching array element. -/
def valueOccurrences : AttrValue → String → Nat
  | .str s, t => if s = t then 1 else 0
  | .arr ss, t => ss.count t
  | .undef, _ => 0

/-- Contribution of one document to the local tally of a category at a
term: zero when the attribute is absent or falsy, otherwise its value
occurrences. -/
def docContrib (data : List (String × AttrValue)) (ft t : String) : Nat :=
  match lookup data ft with
  | some v => if v.truthy then valueOccurrences v t else 0
  | none => 0

/-- Tally count of a category and term inside the nested tally object. -/
def tallyCnt (m : List (String × List (String × Nat))) (ft t : String) : Nat :=
  cnt ((lookup m ft).getD []) t

/-- Modelled from the spec: the count the specification sentence about
the local tally predicts, the number of truthy occurrences of the term,
screening array elements for truthiness as well. -/
def specTruthyOccurrences (data : List (String × AttrValue)) (ft t : String) : Nat :=
  match lookup data ft with
  | some (.str s) => if s = t ∧ (AttrValue.str s).truthy then 1 else 0
  | some (.arr ss) => (ss.filter (fun s => decide (s = t) && (AttrValue.str s).truthy)).length
  | _ => 0

/-- Documents of the page surviving the route predicate. -/
def pageCourses (isVideosPage : Bool) (resp : Response) : List Course :=
  (resp.results.getD []).filter (pagePred isVideosPage)

/-- Server aggregation of the page after the course_type strip. -/
def pageFacets (isVideosPage : Bool) (resp : Response) : List (String × AggValue) :=
  stripFacets isVideosPage (resp.aggs.getD [])

/-- Local facet tally of the page over the surviving documents. -/
def pageTally (isVideosPage : Bool) (resp : Response) :
    List (String × List (String × Nat)) :=
  tallyAll (keysOf (pageFacets isVideosPage resp)) (pageCourses isVideosPage resp)

/-- State of the model right after the counts and cards of the page are
applied, before the facet merge. -/
def parseBase (isVideosPage : Bool) (st : DiscoveryState) (resp : Response) :
    DiscoveryState :=
  { st with
    courseCards := st.courseCards ++ (pageCourses isVideosPage resp).map Course.data
    totalCount := (pageCourses isVideosPage resp).length
    latestCount := (pageCourses isVideosPage resp).length }

/-! ### Concrete fixtures used by counterexamples and witnesses -/

/-- Empty initial model state. -/
def st0 : DiscoveryState := ⟨0, 0, [], []⟩

/-- A video-typed document carrying subject cs. -/
def docVideo : Course := ⟨[("course_type", .str "video"), ("subject", .str "cs")]⟩

/-- A non-video document carrying subject cs. -/
def docPlain : Course := ⟨[("id", .str "c1"), ("subject", .str "cs")]⟩

/-- A document whose subject is an array holding a falsy element. -/
def docArr : Course := ⟨[("subject", .arr ["", "cs"])]⟩

/-- Page of two documents, one video and one not, without aggregation. -/
def respC1 : Response := ⟨some [docVideo, docPlain], none⟩

/-- The scenario page of the spec: two documents, aggregation
subject with terms cs mapped to 2, total 2, other 0. -/
def respC2 : Response :=
  ⟨some [docVideo, docPlain], some [("subject", .entry ⟨[("cs", 2)], 2, 0⟩)]⟩

/-- One identical page used twice for the cross-page accumulation check:
one surviving cs document and a server count of 5 for cs. -/
def respC3 : Response :=
  ⟨some [docPlain], some [("subject", .entry ⟨[("cs", 5)], 5, 0⟩)]⟩

/-- Page whose aggregation holds a malformed truthy value under a
category for which the surviving document produces a tally. -/
def respC8 : Response := ⟨some [docPlain], some [("subject", .junkTruthy)]⟩

/-! ### Lemmas about the map operations -/

theorem lookup_setEntry_self (m : List (String × α)) (k : String) (v : α) :
    lookup (setEntry m k v) k = some v := by
  induction m with
  | nil => simp [setEntry, lookup]
  | cons p rest ih =>
    obtain ⟨pk, pv⟩ := p
    by_cases h : pk = k
    · subst h
      simp [setEntry, lookup]
    · simp [setEntry, lookup, h, ih]

theorem lookup_setEntry_ne (m : List (String × α)) (k k2 : String) (v : α)
    (h : k2 ≠ k) : lookup (setEntry m k v) k2 = lookup m k2 := by
  induction m with
  | nil => simp [setEntry, lookup, Ne.symm h]
  | cons p rest ih =>
    obtain ⟨pk, pv⟩ := p
    by_cases hp : pk = k
    · subst hp
      simp [setEntry, lookup, Ne.symm h]
    · by_cases hp2 : pk = k2
      · simp [setEntry, lookup, hp, hp2, h]
      · simp [setEntry, lookup, hp, hp2, ih]

theorem keysOf_setEntry_of_mem (m : List (String × α)) (k : String) (v : α)
    (h : k ∈ keysOf m) : keysOf (setEntry m k v) = keysOf m := by
  induction m with
  | nil => simp [keysOf] at h
  | cons p rest ih =>
    obtain ⟨pk, pv⟩ := p
    by_cases hp : pk = k
    · subst hp
      simp [setEntry, keysOf]
    · have hmem : k ∈ keysOf rest := by
        rcases (by simpa [keysOf] using h : k = pk ∨ k ∈ keysOf rest) with h1 | h1
        · exact absurd h1.symm hp
        · exact h1
      simp only [setEntry, hp, if_false]
      show keysOf ((pk, pv) :: setEntry rest k v) = keysOf ((pk, pv) :: rest)
      simp only [keysOf, List.map_cons]
      exact congrArg (fun l => pk :: l) (ih hmem)

theorem lookup_eq_none_of_not_mem (m : List (String × α)) (k : String)
    (h : k ∉ keysOf m) : lookup m k = none := by
  induction m with
  | nil => simp [lookup]
  | cons p rest ih =>
    obtain ⟨pk, pv⟩ := p
    simp only [keysOf, List.map_cons, List.mem_cons, not_or] at h
    have hpk : ¬ pk = k := fun hh => h.1 hh.symm
    simp only [lookup, hpk, if_false]
    exact ih (by simpa [keysOf] using h.2)

theorem mem_keysOf_of_lookup (m : List (String × α)) (k : String) (v : α)
    (h : lookup m k = some v) : k ∈ keysOf m := by
  induction m with
  | nil => simp [lookup] at h
  | cons p rest ih =>
    obtain ⟨pk, pv⟩ := p
    by_cases hp : pk = k
    · simp [keysOf, hp.symm]
    · simp only [lookup, hp, if_false] at h
      simp only [keysOf, List.map_cons, List.mem_cons]
      exact Or.inr (by simpa [keysOf] using ih h)

/-! ### Lemmas about key sorting -/

theorem charListLeb_iff : ∀ as bs : List Char,
    charListLeb as bs = true ↔ ¬ List.Lex (· < ·) bs as
  | [], bs => by
    simp only [charListLeb, true_iff]
    exact List.Lex.not_nil_right _ _
  | a :: as, [] => by
    simp only [charListLeb, Bool.false_eq_true, false_iff, not_not]
    exact List.Lex.nil
  | a :: as, b :: bs => by
    rw [charListLeb]
    by_cases hab : a < b
    · simp only [hab, if_true, true_iff]
      intro hlex
      cases hlex with
      | cons h => exact lt_irrefl _ hab
      | rel h => exact lt_asymm hab h
    · by_cases hba : b < a
      · rw [if_neg hab, if_pos hba]
        simp only [Bool.false_eq_true, false_iff, not_not]
        exact List.Lex.rel hba
      · have hEq : a = b := le_antisymm (not_lt.mp hba) (not_lt.mp hab)
        subst hEq
        simp only [hab, if_false, lt_irrefl, charListLeb_iff as bs]
        constructor
        · intro h hlex
          cases hlex with
          | cons h2 => exact h h2
          | rel h2 => exact lt_irrefl _ h2
        · intro h hlex
          exact h (List.Lex.cons hlex)

theorem strLeb_iff (a b : String) : strLeb a b = true ↔ a ≤ b := by
  rw [String.le_iff_toList_le, ← not_lt, strLeb, charListLeb_iff]
  exact Iff.rfl

theorem strLeb_total (a b : String) : strLeb a b = true ∨ strLeb b a = true := by
  rw [strLeb_iff, strLeb_iff]
  exact le_total a b

theorem mem_insertKey (t u : String) (l : List String) :
    u ∈ insertKey t l ↔ u = t ∨ u ∈ l := by
  induction l with
  | nil => simp [insertKey]
  | cons v vs ih =>
    rw [insertKey]
    by_cases h : strLeb t v = true
    · simp [h]
    · rw [if_neg h]
      simp only [List.mem_cons, ih]
      tauto

theorem sorted_insertKey (t : String) (l : List String)
    (h : l.Sorted (· ≤ ·)) : (insertKey t l).Sorted (· ≤ ·) := by
  induction l with
  | nil => simp [insertKey]
  | cons v vs ih =>
    by_cases hle : strLeb t v = true
    · rw [insertKey, if_pos hle]
      refine List.sorted_cons.mpr ⟨?_, h⟩
      intro b hb
      have htv : t ≤ v := (strLeb_iff t v).mp hle
      rcases List.mem_cons.mp hb with h1 | h1
      · exact h1 ▸ htv
      · exact le_trans htv ((List.sorted_cons.mp h).1 b h1)
    · rw [insertKey, if_neg hle]
      have hvt : v ≤ t := by
        rcases strLeb_total t v with h1 | h1
        · exact absurd h1 hle
        · exact (strLeb_iff v t).mp h1
      refine List.sorted_cons.mpr ⟨?_, ih (List.sorted_cons.mp h).2⟩
      intro b hb
      rcases (mem_insertKey t b vs).mp hb with h1 | h1
      · exact h1 ▸ hvt
      · exact (List.sorted_cons.mp h).1 b h1

theorem sorted_sortKeys (l : List String) : (sortKeys l).Sorted (· ≤ ·) := by
  induction l with
  | nil => simp [sortKeys]
  | cons k ks ih => exact sorted_insertKey k (sortKeys ks) ih

theorem mem_sortKeys (l : List String) (u : String) : u ∈ sortKeys l ↔ u ∈ l := by
  induction l with
  | nil => simp [sortKeys]
  | cons k ks ih => simp [sortKeys, mem_insertKey, ih]

theorem perm_insertKey (t : String) (l : List String) :
    (insertKey t l).Perm (t :: l) := by
  induction l with
  | nil => simp [insertKey]
  | cons v vs ih =>
    by_cases h : strLeb t v = true
    · simp [insertKey, h]
    · rw [insertKey, if_neg h]
      exact (ih.cons v).trans (List.Perm.swap t v vs)

theorem perm_sortKeys (l : List String) : (sortKeys l).Perm l := by
  induction l with
  | nil => simp [sortKeys]
  | cons k ks ih => exact (perm_insertKey k (sortKeys ks)).trans (ih.cons k)

/-! ### Lemmas about the local tally -/

theorem cnt_tallyInc (m : List (String × Nat)) (k t : String) :
    cnt (tallyInc m k) t = cnt m t + (if k = t then 1 else 0) := by
  by_cases h : t = k
  · subst h
    simp [tallyInc, cnt, lookup_setEntry_self]
  · simp [tallyInc, cnt, lookup_setEntry_ne m k t _ h, Ne.symm h]

theorem cnt_foldl_tallyInc (ss : List String) (m : List (String × Nat)) (t : String) :
    cnt (ss.foldl tallyInc m) t = cnt m t + ss.count t := by
  induction ss generalizing m with
  | nil => simp
  | cons s rest ih =>
    rw [List.foldl_cons, ih, cnt_tallyInc]
    by_cases h : s = t
    · subst h
      simp only [List.count_cons, beq_self_eq_true, if_true]
      omega
    · simp [List.count_cons, h]

theorem cnt_tallyValue (m : List (String × Nat)) (v : AttrValue) (t : String) :
    cnt (tallyValue m v) t = cnt m t + valueOccurrences v t := by
  cases v with
  | undef => simp [tallyValue, valueOccurrences]
  | str s => rw [tallyValue, cnt_tallyInc, valueOccurrences]
  | arr ss => rw [tallyValue, cnt_foldl_tallyInc, valueOccurrences]

theorem tallyCnt_tallyDocFacet_self (acc : List (String × List (String × Nat)))
    (data : List (String × AttrValue)) (ft t : String) :
    tallyCnt (tallyDocFacet acc data ft) ft t = tallyCnt acc ft t + docContrib data ft t := by
  rw [tallyDocFacet, docContrib]
  cases hl : lookup data ft with
  | none => simp [tallyCnt]
  | some v =>
    by_cases hv : v.truthy
    · simp only [hv, if_true, tallyCnt, lookup_setEntry_self, Option.getD_some]
      exact cnt_tallyValue _ v t
    · simp [hv, tallyCnt]

theorem tallyCnt_tallyDocFacet_ne (acc : List (String × List (String × Nat)))
    (data : List (String × AttrValue)) (ft ft2 t : String) (h : ft2 ≠ ft) :
    tallyCnt (tallyDocFacet acc data ft) ft2 t = tallyCnt acc ft2 t := by
  rw [tallyDocFacet]
  cases lookup data ft with
  | none => rfl
  | some v =>
    by_cases hv : v.truthy
    · simp only [hv, if_true, tallyCnt, lookup_setEntry_ne _ _ _ _ h]
    · simp [hv, tallyCnt]

theorem tallyCnt_tallyDoc_not_mem (fts : List String)
    (acc : List (String × List (String × Nat))) (data : List (String × AttrValue))
    (ft t : String) (h : ft ∉ fts) :
    tallyCnt (tallyDoc fts acc data) ft t = tallyCnt acc ft t := by
  induction fts generalizing acc with
  | nil => rfl
  | cons f rest ih =>
    simp only [List.mem_cons, not_or] at h
    rw [tallyDoc, List.foldl_cons]
    have step : tallyCnt (tallyDocFacet acc data f) ft t = tallyCnt acc ft t :=
      tallyCnt_tallyDocFacet_ne acc data f ft t h.1
    rw [show (List.foldl (fun a ft => tallyDocFacet a data ft) (tallyDocFacet acc data f) rest) =
        tallyDoc rest (tallyDocFacet acc data f) data from rfl, ih _ h.2, step]

theorem tallyCnt_tallyDoc_mem (fts : List String)
    (acc : List (String × List (String × Nat))) (data : List (String × AttrValue))
    (ft t : String) (hnd : fts.Nodup) (h : ft ∈ fts) :
    tallyCnt (tallyDoc fts acc data) ft t = tallyCnt acc ft t + docContrib data ft t := by
  induction fts generalizing acc with
  | nil => simp at h
  | cons f rest ih =>
    rw [tallyDoc, List.foldl_cons,
      show (List.foldl (fun a ft => tallyDocFacet a data ft) (tallyDocFacet acc data f) rest) =
        tallyDoc rest (tallyDocFacet acc data f) data from rfl]
    rcases List.mem_cons.mp h with h1 | h1
    · subst h1
      have hnot : ft ∉ rest := (List.nodup_cons.mp hnd).1
      rw [tallyCnt_tallyDoc_not_mem rest _ data ft t hnot,
        tallyCnt_tallyDocFacet_self]
    · have hne : ft ≠ f := by
        rintro rfl
        exact (List.nodup_cons.mp hnd).1 h1
      rw [ih _ (List.nodup_cons.mp hnd).2 h1, tallyCnt_tallyDocFacet_ne _ _ _ _ _ hne]

theorem tallyCnt_init (fts : List String) (ft t : String) :
    tallyCnt (fts.map (fun f => (f, []))) ft t = 0 := by
  induction fts with
  | nil => simp [tallyCnt, lookup, cnt]
  | cons f rest ih =>
    by_cases h : f = ft
    · simp [tallyCnt, lookup, h, cnt]
    · simpa [tallyCnt, lookup, h] using ih

theorem tallyCnt_tallyAll (fts : List String) (courses : List Course)
    (ft t : String) (hnd : fts.Nodup) (h : ft ∈ fts) :
    tallyCnt (tallyAll fts courses) ft t =
      (courses.map (fun c => docContrib c.data ft t)).sum := by
  rw [tallyAll]
  suffices hgen : ∀ acc : List (String × List (String × Nat)),
      tallyCnt (courses.foldl (fun acc c => tallyDoc fts acc c.data) acc) ft t =
        tallyCnt acc ft t + (courses.map (fun c => docContrib c.data ft t)).sum by
    rw [hgen, tallyCnt_init]
    simp
  induction courses with
  | nil => simp
  | cons c rest ih =>
    intro acc
    rw [List.foldl_cons, ih, tallyCnt_tallyDoc_mem fts acc c.data ft t hnd h,
      List.map_cons, List.sum_cons, Nat.add_assoc]

/-! ### Lemmas about the merge loop -/

theorem lookup_mergeTerms (values : List (String × Nat)) (ts : List (String × Nat))
    (t : String) (hnd : (keysOf values).Nodup) :
    lookup (mergeTerms ts values) t =
      match lookup values t with
      | none => lookup ts t
      | some c => some ((lookup ts t).getD 0 + c) := by
  induction values generalizing ts with
  | nil => simp [mergeTerms, lookup]
  | cons tc rest ih =>
    obtain ⟨t0, c0⟩ := tc
    have hstep : mergeTerms ts ((t0, c0) :: rest) =
        mergeTerms (setEntry ts t0 ((lookup ts t0).getD 0 + c0)) rest := by
      rw [mergeTerms, List.foldl_cons]
      cases hl : lookup ts t0 with
      | none => simp [hl, mergeTerms]
      | some n =>
        by_cases hn : n = 0
        · subst hn
          simp [hl, mergeTerms]
        · simp [hl, hn, mergeTerms]
    have hnd2 : (t0 :: keysOf rest).Nodup := by
      simpa only [keysOf, List.map_cons] using hnd
    rw [hstep, ih _ (List.nodup_cons.mp hnd2).2]
    have hnotin : t0 ∉ keysOf rest := (List.nodup_cons.mp hnd2).1
    by_cases ht : t = t0
    · subst ht
      rw [lookup_eq_none_of_not_mem rest t hnotin]
      simp [lookup, lookup_setEntry_self]
    · rw [lookup_setEntry_ne ts t0 t _ ht]
      simp [lookup, Ne.symm ht]

theorem mergeStep_ok_ne (fs fs2 : List (String × AggValue))
    (p : String × List (String × Nat)) (k : String)
    (hok : mergeStep fs p = .ok fs2) (h : k ≠ p.1) :
    lookup fs2 k = lookup fs k := by
  rw [mergeStep] at hok
  cases hl : lookup fs p.1 with
  | none =>
    rw [hl] at hok
    cases hok
    exact lookup_setEntry_ne fs p.1 k _ h
  | some v =>
    rw [hl] at hok
    cases v with
    | junkFalsy =>
      cases hok
      exact lookup_setEntry_ne fs p.1 k _ h
    | junkTruthy =>
      by_cases he : p.2.isEmpty
      · rw [if_pos he] at hok
        cases hok
        rfl
      · rw [if_neg he] at hok
        cases hok
    | entry e =>
      cases hok
      exact lookup_setEntry_ne fs p.1 k _ h

theorem mergeStep_ok_self (fs fs2 : List (String × AggValue))
    (p : String × List (String × Nat)) (hok : mergeStep fs p = .ok fs2) :
    lookup fs2 p.1 = some (mergedValue (lookup fs p.1) p.2) := by
  rw [mergeStep] at hok
  cases hl : lookup fs p.1 with
  | none =>
    rw [hl] at hok
    cases hok
    rw [mergedValue, lookup_setEntry_self]
  | some v =>
    rw [hl] at hok
    cases v with
    | junkFalsy =>
      cases hok
      rw [mergedValue, lookup_setEntry_self]
    | junkTruthy =>
      by_cases he : p.2.isEmpty
      · rw [if_pos he] at hok
        cases hok
        rw [mergedValue, hl]
      · rw [if_neg he] at hok
        cases hok
    | entry e =>
      cases hok
      rw [mergedValue, lookup_setEntry_self]

theorem mergeFacets_cons (fs : List (String × AggValue))
    (p : String × List (String × Nat)) (rest : List (String × List (String × Nat)))
    (m : List (String × AggValue))
    (hok : mergeFacets fs (p :: rest) = .ok m) :
    ∃ fs2, mergeStep fs p = .ok fs2 ∧ mergeFacets fs2 rest = .ok m := by
  rw [mergeFacets, List.foldlM_cons] at hok
  cases hstep : mergeStep fs p with
  | error e =>
    rw [hstep] at hok
    simp [Bind.bind, Except.bind] at hok
  | ok fs2 =>
    rw [hstep] at hok
    simp only [Bind.bind, Except.bind] at hok
    exact ⟨fs2, rfl, hok⟩

theorem mergeFacets_ok_not_mem (allF : List (String × List (String × Nat)))
    (fs m : List (String × AggValue)) (k : String)
    (hok : mergeFacets fs allF = .ok m) (h : k ∉ allF.map (·.1)) :
    lookup m k = lookup fs k := by
  induction allF generalizing fs with
  | nil =>
    rw [mergeFacets] at hok
    cases hok
    rfl
  | cons p rest ih =>
    obtain ⟨fs2, hstep, hrest⟩ := mergeFacets_cons fs p rest m hok
    simp only [List.map_cons, List.mem_cons, not_or] at h
    rw [ih fs2 hrest (by simpa using h.2)]
    exact mergeStep_ok_ne fs fs2 p k hstep h.1

theorem mergeFacets_ok_mem (allF : List (String × List (String × Nat)))
    (fs m : List (String × AggValue)) (ft : String) (values : List (String × Nat))
    (hnd : (allF.map (·.1)).Nodup)
    (hok : mergeFacets fs allF = .ok m) (hmem : (ft, values) ∈ allF) :
    lookup m ft = some (mergedValue (lookup fs ft) values) := by
  induction allF generalizing fs with
  | nil => simp at hmem
  | cons p rest ih =>
    obtain ⟨fs2, hstep, hrest⟩ := mergeFacets_cons fs p rest m hok
    have hnd2 : (p.1 :: rest.map (·.1)).Nodup := by
      simpa only [List.map_cons] using hnd
    rcases List.mem_cons.mp hmem with h1 | h1
    · subst h1
      have hnot : ft ∉ rest.map (·.1) := (List.nodup_cons.mp hnd2).1
      rw [mergeFacets_ok_not_mem rest fs2 m ft hrest hnot]
      exact mergeStep_ok_self fs fs2 (ft, values) hstep
    · have hfin : ft ∈ rest.map (·.1) := List.mem_map.mpr ⟨(ft, values), h1, rfl⟩
      have hne : ft ≠ p.1 := fun hh => (List.nodup_cons.mp hnd2).1 (hh ▸ hfin)
      rw [ih fs2 (List.nodup_cons.mp hnd2).2 hrest h1,
        mergeStep_ok_ne fs fs2 p ft hstep hne]

/-! ### Lemmas about the facet-option upserts -/

theorem optLookup_upsert_self (opts : List FacetOption) (o : FacetOption) :
    optLookup (upsertOption opts o) o.facet o.term = some o.count := by
  induction opts with
  | nil => simp [upsertOption, optLookup]
  | cons p rest ih =>
    rw [upsertOption]
    by_cases h : p.facet = o.facet ∧ p.term = o.term
    · rw [if_pos h, optLookup, if_pos ⟨h.1, h.2⟩]
    · rw [if_neg h, optLookup, if_neg h, ih]

theorem optLookup_upsert_ne (opts : List FacetOption) (o : FacetOption)
    (f t : String) (h : ¬ (o.facet = f ∧ o.term = t)) :
    optLookup (upsertOption opts o) f t = optLookup opts f t := by
  induction opts with
  | nil =>
    simp only [upsertOption, optLookup]
    rw [if_neg h]
  | cons p rest ih =>
    rw [upsertOption]
    by_cases hp : p.facet = o.facet ∧ p.term = o.term
    · rw [if_pos hp, optLookup, optLookup]
      have : (p.facet = f ∧ p.term = t) ↔ False := by
        constructor
        · intro hh
          exact h ⟨hp.1 ▸ hh.1, hp.2 ▸ hh.2⟩
        · exact False.elim
      by_cases hc : p.facet = f ∧ p.term = t
      · exact absurd (this.mp hc) id
      · rw [if_neg hc, if_neg hc]
    · rw [if_neg hp, optLookup, optLookup, ih]

theorem optLookup_foldl_upsert_ne (L : List FacetOption) (opts : List FacetOption)
    (f t : String) (h : ∀ o ∈ L, ¬ (o.facet = f ∧ o.term = t)) :
    optLookup (L.foldl upsertOption opts) f t = optLookup opts f t := by
  induction L generalizing opts with
  | nil => rfl
  | cons o rest ih =>
    rw [List.foldl_cons, ih _ (fun o2 ho2 => h o2 (List.mem_cons_of_mem o ho2)),
      optLookup_upsert_ne opts o f t (h o (List.mem_cons_self o rest))]

theorem optLookup_foldl_upsert_keys_ne (f : String) (g : String → Nat)
    (ks : List String) (opts : List FacetOption) (f2 t : String)
    (h : ∀ u ∈ ks, ¬ (f = f2 ∧ u = t)) :
    optLookup (ks.foldl (fun os u => upsertOption os ⟨f, u, g u⟩) opts) f2 t =
      optLookup opts f2 t := by
  induction ks generalizing opts with
  | nil => rfl
  | cons u us ih =>
    rw [List.foldl_cons, ih _ (fun u2 hu2 => h u2 (List.mem_cons_of_mem u hu2)),
      optLookup_upsert_ne opts ⟨f, u, g u⟩ f2 t (h u (List.mem_cons_self u us))]

theorem optLookup_foldl_upsert_keys_self (f : String) (g : String → Nat)
    (ks : List String) (opts : List FacetOption) (t : String)
    (hnd : ks.Nodup) (hmem : t ∈ ks) :
    optLookup (ks.foldl (fun os u => upsertOption os ⟨f, u, g u⟩) opts) f t =
      some (g t) := by
  induction ks generalizing opts with
  | nil => simp at hmem
  | cons u us ih =>
    rw [List.foldl_cons]
    rcases List.mem_cons.mp hmem with h1 | h1
    · subst h1
      have hnot : t ∉ us := (List.nodup_cons.mp hnd).1
      rw [optLookup_foldl_upsert_keys_ne f g us _ f t
        (fun u2 hu2 hc => hnot (hc.2 ▸ hu2))]
      exact optLookup_upsert_self opts ⟨f, t, g t⟩
    · exact ih _ (List.nodup_cons.mp hnd).2 h1

theorem optLookup_addCategory_self (opts : List FacetOption) (kv : String × AggValue)
    (t : String) (hnd : (keysOf (termsOf kv.2)).Nodup)
    (hmem : t ∈ keysOf (termsOf kv.2)) :
    optLookup (addCategory opts kv) kv.1 t = some (cnt (termsOf kv.2) t) := by
  rw [addCategory, categoryAdds, List.foldl_map]
  exact optLookup_foldl_upsert_keys_self kv.1 (cnt (termsOf kv.2))
    (sortKeys (keysOf (termsOf kv.2))) opts t
    (((perm_sortKeys (keysOf (termsOf kv.2))).nodup_iff).mpr hnd)
    ((mem_sortKeys (keysOf (termsOf kv.2)) t).mpr hmem)

theorem optLookup_addCategory_ne (opts : List FacetOption) (kv : String × AggValue)
    (f t : String) (h : kv.1 ≠ f) :
    optLookup (addCategory opts kv) f t = optLookup opts f t := by
  rw [addCategory, categoryAdds, List.foldl_map]
  exact optLookup_foldl_upsert_keys_ne kv.1 (cnt (termsOf kv.2)) _ opts f t
    (fun u _ hc => h hc.1)

theorem optLookup_foldl_addCategory_ne
    (rest : List (String × AggValue)) (opts : List FacetOption) (f t : String)
    (h : f ∉ rest.map (·.1)) :
    optLookup (rest.foldl addCategory opts) f t = optLookup opts f t := by
  induction rest generalizing opts with
  | nil => rfl
  | cons kv rest2 ih =>
    simp only [List.map_cons, List.mem_cons, not_or] at h
    rw [List.foldl_cons, ih _ (by simpa using h.2),
      optLookup_addCategory_ne opts kv f t (fun hh => h.1 hh.symm)]

theorem optLookup_addOptions (opts : List FacetOption)
    (facets : List (String × AggValue)) (f t : String) (v : AggValue)
    (hnd : (facets.map (·.1)).Nodup) (hmemF : (f, v) ∈ facets)
    (hmemT : t ∈ keysOf (termsOf v)) (hndT : (keysOf (termsOf v)).Nodup) :
    optLookup (addOptions opts facets) f t = some (cnt (termsOf v) t) := by
  induction facets generalizing opts with
  | nil => simp at hmemF
  | cons kv rest ih =>
    have hnd2 : (kv.1 :: rest.map (·.1)).Nodup := by
      simpa only [List.map_cons] using hnd
    rw [addOptions, List.foldl_cons]
    rcases List.mem_cons.mp hmemF with h1 | h1
    · subst h1
      rw [show (List.foldl addCategory (addCategory opts (f, v)) rest) =
          addOptions (addCategory opts (f, v)) rest from rfl]
      rw [show addOptions (addCategory opts (f, v)) rest =
          rest.foldl addCategory (addCategory opts (f, v)) from rfl]
      rw [optLookup_foldl_addCategory_ne rest _ f t (List.nodup_cons.mp hnd2).1]
      exact optLookup_addCategory_self opts (f, v) t hndT hmemT
    · have hfin : f ∈ rest.map (·.1) := List.mem_map.mpr ⟨(f, v), h1, rfl⟩
      have hne : kv.1 ≠ f := fun hh => (List.nodup_cons.mp hnd2).1 (hh ▸ hfin)
      rw [show (List.foldl addCategory (addCategory opts kv) rest) =
          addOptions (addCategory opts kv) rest from rfl,
        ih _ (List.nodup_cons.mp hnd2).2 h1]

theorem key_surv_upsert (opts : List FacetOption) (o p : FacetOption)
    (h : p ∈ opts) :
    ∃ q ∈ upsertOption opts o, q.facet = p.facet ∧ q.term = p.term := by
  induction opts with
  | nil => simp at h
  | cons r rest ih =>
    rw [upsertOption]
    by_cases hr : r.facet = o.facet ∧ r.term = o.term
    · rw [if_pos hr]
      rcases List.mem_cons.mp h with h1 | h1
      · exact ⟨{ r with count := o.count }, List.mem_cons_self _ _, by rw [h1]; exact ⟨rfl, rfl⟩⟩
      · exact ⟨p, List.mem_cons_of_mem _ h1, rfl, rfl⟩
    · rw [if_neg hr]
      rcases List.mem_cons.mp h with h1 | h1
      · exact ⟨r, List.mem_cons_self _ _, by rw [h1]; exact ⟨rfl, rfl⟩⟩
      · obtain ⟨q, hq, hqe⟩ := ih h1
        exact ⟨q, List.mem_cons_of_mem _ hq, hqe⟩

theorem key_surv_foldl_upsert (L : List FacetOption) (opts : List FacetOption)
    (p : FacetOption) (h : p ∈ opts) :
    ∃ q ∈ L.foldl upsertOption opts, q.facet = p.facet ∧ q.term = p.term := by
  induction L generalizing opts p with
  | nil => exact ⟨p, h, rfl, rfl⟩
  | cons o rest ih =>
    rw [List.foldl_cons]
    obtain ⟨q1, hq1, hq1e⟩ := key_surv_upsert opts o p h
    obtain ⟨q2, hq2, hq2e⟩ := ih _ q1 hq1
    exact ⟨q2, hq2, hq2e.1.trans hq1e.1, hq2e.2.trans hq1e.2⟩

theorem key_surv_addOptions (facets : List (String × AggValue))
    (opts : List FacetOption) (p : FacetOption) (h : p ∈ opts) :
    ∃ q ∈ addOptions opts facets, q.facet = p.facet ∧ q.term = p.term := by
  induction facets generalizing opts p with
  | nil => exact ⟨p, h, rfl, rfl⟩
  | cons kv rest ih =>
    rw [addOptions, List.foldl_cons]
    obtain ⟨q1, hq1, hq1e⟩ := key_surv_foldl_upsert (categoryAdds kv) opts p h
    obtain ⟨q2, hq2, hq2e⟩ := ih _ q1 hq1
    exact ⟨q2, hq2, hq2e.1.trans hq1e.1, hq2e.2.trans hq1e.2⟩

/-! ### Well-formedness plumbing: key sets and their uniqueness -/

theorem keysOf_setEntry_of_not_mem (m : List (String × α)) (k : String) (v : α)
    (h : k ∉ keysOf m) : keysOf (setEntry m k v) = keysOf m ++ [k] := by
  induction m with
  | nil => simp [setEntry, keysOf]
  | cons p rest ih =>
    obtain ⟨pk, pv⟩ := p
    simp only [keysOf, List.map_cons, List.mem_cons, not_or] at h
    have hpk : ¬ pk = k := fun hh => h.1 hh.symm
    simp only [setEntry, hpk, if_false, keysOf, List.map_cons, List.cons_append]
    exact congrArg (fun l => pk :: l) (ih (by simpa [keysOf] using h.2))

theorem nodup_keys_setEntry (m : List (String × α)) (k : String) (v : α)
    (h : (keysOf m).Nodup) : (keysOf (setEntry m k v)).Nodup := by
  by_cases hk : k ∈ keysOf m
  · rw [keysOf_setEntry_of_mem m k v hk]
    exact h
  · rw [keysOf_setEntry_of_not_mem m k v hk]
    simp [List.nodup_append, h, hk]

theorem lookup_isSome_of_mem (m : List (String × α)) (k : String)
    (h : k ∈ keysOf m) : ∃ v, lookup m k = some v := by
  induction m with
  | nil => simp [keysOf] at h
  | cons p rest ih =>
    obtain ⟨pk, pv⟩ := p
    by_cases hp : pk = k
    · subst hp
      exact ⟨pv, by simp [lookup]⟩
    · have hmem : k ∈ keysOf rest := by
        rcases (by simpa [keysOf] using h : k = pk ∨ k ∈ keysOf rest) with h1 | h1
        · exact absurd h1.symm hp
        · exact h1
      obtain ⟨v, hv⟩ := ih hmem
      exact ⟨v, by simp [lookup, hp, hv]⟩

theorem lookup_mem (m : List (String × α)) (k : String) (v : α)
    (h : lookup m k = some v) : (k, v) ∈ m := by
  induction m with
  | nil => simp [lookup] at h
  | cons p rest ih =>
    obtain ⟨pk, pv⟩ := p
    by_cases hp : pk = k
    · subst hp
      rw [lookup, if_pos rfl] at h
      cases h
      exact List.mem_cons_self _ _
    · rw [lookup, if_neg hp] at h
      exact List.mem_cons_of_mem _ (ih h)

theorem mem_setEntry (m : List (String × α)) (k : String) (v : α)
    (p : String × α) (h : p ∈ setEntry m k v) : p ∈ m ∨ p = (k, v) := by
  induction m with
  | nil =>
    rw [setEntry] at h
    exact Or.inr (List.mem_singleton.mp h)
  | cons q rest ih =>
    obtain ⟨qk, qv⟩ := q
    by_cases hq : qk = k
    · subst hq
      rw [setEntry, if_pos rfl] at h
      rcases List.mem_cons.mp h with h1 | h1
      · exact Or.inr (by rw [h1])
      · exact Or.inl (List.mem_cons_of_mem _ h1)
    · rw [setEntry, if_neg hq] at h
      rcases List.mem_cons.mp h with h1 | h1
      · exact Or.inl (h1 ▸ List.mem_cons_self _ _)
      · rcases ih h1 with h2 | h2
        · exact Or.inl (List.mem_cons_of_mem _ h2)
        · exact Or.inr h2

theorem nodup_keys_tallyInc (m : List (String × Nat)) (k : String)
    (h : (keysOf m).Nodup) : (keysOf (tallyInc m k)).Nodup :=
  nodup_keys_setEntry m k _ h

theorem nodup_keys_foldl_tallyInc (ss : List String) (m : List (String × Nat))
    (h : (keysOf m).Nodup) : (keysOf (ss.foldl tallyInc m)).Nodup := by
  induction ss generalizing m with
  | nil => exact h
  | cons s rest ih => exact ih _ (nodup_keys_tallyInc m s h)

theorem nodup_keys_tallyValue (m : List (String × Nat)) (v : AttrValue)
    (h : (keysOf m).Nodup) : (keysOf (tallyValue m v)).Nodup := by
  cases v with
  | undef => exact h
  | str s => exact nodup_keys_tallyInc m s h
  | arr ss => exact nodup_keys_foldl_tallyInc ss m h

/-- Invariant of the tally: every per-category term map has unique keys. -/
def TallyWF (acc : List (String × List (String × Nat))) : Prop :=
  ∀ p ∈ acc, (keysOf p.2).Nodup

theorem tallyWF_tallyDocFacet (acc : List (String × List (String × Nat)))
    (data : List (String × AttrValue)) (ft : String) (h : TallyWF acc) :
    TallyWF (tallyDocFacet acc data ft) := by
  cases hl : lookup data ft with
  | none =>
    rw [tallyDocFacet, hl]
    exact h
  | some v =>
    simp only [tallyDocFacet, hl]
    by_cases hv : v.truthy
    · rw [if_pos hv]
      intro p hp
      rcases mem_setEntry _ _ _ p hp with h1 | h1
      · exact h p h1
      · subst h1
        refine nodup_keys_tallyValue _ v ?_
        cases hl2 : lookup acc ft with
        | none => simp [keysOf]
        | some old =>
          simpa using h (ft, old) (lookup_mem acc ft old hl2)
    · rw [if_neg hv]
      exact h

theorem tallyWF_tallyDoc (fts : List String)
    (acc : List (String × List (String × Nat))) (data : List (String × AttrValue))
    (h : TallyWF acc) : TallyWF (tallyDoc fts acc data) := by
  induction fts generalizing acc with
  | nil => exact h
  | cons f rest ih => exact ih _ (tallyWF_tallyDocFacet acc data f h)

theorem tallyWF_tallyAll (fts : List String) (courses : List Course) :
    TallyWF (tallyAll fts courses) := by
  rw [tallyAll]
  have hinit : TallyWF (fts.map (fun ft => (ft, []))) := by
    intro p hp
    rcases List.mem_map.mp hp with ⟨f, _, hf⟩
    rw [← hf]
    simp [keysOf]
  revert hinit
  generalize (fts.map fun ft => (ft, ([] : List (String × Nat)))) = acc
  induction courses generalizing acc with
  | nil => exact fun h => h
  | cons c rest ih =>
    intro h
    rw [List.foldl_cons]
    exact ih _ (tallyWF_tallyDoc fts _ c.data h)

theorem keysOf_tallyDocFacet (acc : List (String × List (String × Nat)))
    (data : List (String × AttrValue)) (ft : String) (h : ft ∈ keysOf acc) :
    keysOf (tallyDocFacet acc data ft) = keysOf acc := by
  cases hl : lookup data ft with
  | none =>
    rw [tallyDocFacet, hl]
  | some v =>
    simp only [tallyDocFacet, hl]
    by_cases hv : v.truthy
    · rw [if_pos hv]
      exact keysOf_setEntry_of_mem acc ft _ h
    · rw [if_neg hv]

theorem keysOf_tallyDoc (fts : List String)
    (acc : List (String × List (String × Nat))) (data : List (String × AttrValue))
    (h : ∀ ft ∈ fts, ft ∈ keysOf acc) : keysOf (tallyDoc fts acc data) = keysOf acc := by
  induction fts generalizing acc with
  | nil => rfl
  | cons f rest ih =>
    rw [tallyDoc, List.foldl_cons,
      show (List.foldl (fun a ft => tallyDocFacet a data ft) (tallyDocFacet acc data f) rest) =
        tallyDoc rest (tallyDocFacet acc data f) data from rfl]
    have hstep : keysOf (tallyDocFacet acc data f) = keysOf acc :=
      keysOf_tallyDocFacet acc data f (h f (List.mem_cons_self f rest))
    rw [ih _ (fun ft hft => hstep ▸ h ft (List.mem_cons_of_mem f hft)), hstep]

theorem keysOf_tallyAll (fts : List String) (courses : List Course) :
    keysOf (tallyAll fts courses) = fts := by
  rw [tallyAll]
  have hinit : keysOf (fts.map fun ft => (ft, ([] : List (String × Nat)))) = fts := by
    induction fts with
    | nil => rfl
    | cons f rest ih => simpa [keysOf] using ih
  suffices hgen : ∀ acc : List (String × List (String × Nat)),
      (∀ ft ∈ fts, ft ∈ keysOf acc) →
      keysOf (courses.foldl (fun acc c => tallyDoc fts acc c.data) acc) = keysOf acc by
    rw [hgen _ (fun ft hft => by rw [hinit]; exact hft), hinit]
  induction courses with
  | nil => exact fun acc _ => rfl
  | cons c rest ih =>
    intro acc hacc
    rw [List.foldl_cons]
    have hstep : keysOf (tallyDoc fts acc c.data) = keysOf acc :=
      keysOf_tallyDoc fts acc c.data hacc
    rw [ih _ (fun ft hft => hstep ▸ hacc ft hft), hstep]

theorem mergeTerms_cons (ts : List (String × Nat)) (t0 : String) (c0 : Nat)
    (rest : List (String × Nat)) :
    mergeTerms ts ((t0, c0) :: rest) =
      mergeTerms (setEntry ts t0 ((lookup ts t0).getD 0 + c0)) rest := by
  rw [mergeTerms, List.foldl_cons]
  cases hl : lookup ts t0 with
  | none => simp [hl, mergeTerms]
  | some n =>
    by_cases hn : n = 0
    · subst hn
      simp [hl, mergeTerms]
    · simp [hl, hn, mergeTerms]

theorem nodup_keys_mergeTerms (ts values : List (String × Nat))
    (h : (keysOf ts).Nodup) : (keysOf (mergeTerms ts values)).Nodup := by
  induction values generalizing ts with
  | nil => exact h
  | cons tc rest ih =>
    obtain ⟨t0, c0⟩ := tc
    rw [mergeTerms_cons]
    exact ih _ (nodup_keys_setEntry ts t0 _ h)

theorem mem_keys_mergeTerms (ts values : List (String × Nat)) (t : String)
    (hnd : (keysOf values).Nodup)
    (h : t ∈ keysOf ts ∨ t ∈ keysOf values) :
    t ∈ keysOf (mergeTerms ts values) := by
  have hchar := lookup_mergeTerms values ts t hnd
  rcases h with h1 | h1
  · obtain ⟨v, hv⟩ := lookup_isSome_of_mem ts t h1
    cases hl : lookup values t with
    | none =>
      simp only [hl] at hchar
      exact mem_keysOf_of_lookup _ t v (hchar.trans hv)
    | some c =>
      simp only [hl] at hchar
      exact mem_keysOf_of_lookup _ t _ hchar
  · obtain ⟨c, hc⟩ := lookup_isSome_of_mem values t h1
    simp only [hc] at hchar
    exact mem_keysOf_of_lookup _ t _ hchar

theorem nodup_keys_mergeStep (fs fs2 : List (String × AggValue))
    (p : String × List (String × Nat)) (hok : mergeStep fs p = .ok fs2)
    (h : (keysOf fs).Nodup) : (keysOf fs2).Nodup := by
  rw [mergeStep] at hok
  cases hl : lookup fs p.1 with
  | none =>
    rw [hl] at hok
    cases hok
    exact nodup_keys_setEntry fs p.1 _ h
  | some v =>
    rw [hl] at hok
    cases v with
    | junkFalsy =>
      cases hok
      exact nodup_keys_setEntry fs p.1 _ h
    | junkTruthy =>
      by_cases he : p.2.isEmpty
      · rw [if_pos he] at hok
        cases hok
        exact h
      · rw [if_neg he] at hok
        cases hok
    | entry e =>
      cases hok
      exact nodup_keys_setEntry fs p.1 _ h

theorem nodup_keys_mergeFacets (allF : List (String × List (String × Nat)))
    (fs m : List (String × AggValue)) (hok : mergeFacets fs allF = .ok m)
    (h : (keysOf fs).Nodup) : (keysOf m).Nodup := by
  induction allF generalizing fs with
  | nil =>
    rw [mergeFacets] at hok
    cases hok
    exact h
  | cons p rest ih =>
    obtain ⟨fs2, hstep, hrest⟩ := mergeFacets_cons fs p rest m hok
    exact ih fs2 hrest (nodup_keys_mergeStep fs fs2 p hstep h)

theorem nodup_keys_eraseEntry (m : List (String × α)) (k : String)
    (h : (keysOf m).Nodup) : (keysOf (eraseEntry m k)).Nodup := by
  refine List.Nodup.sublist ?_ h
  rw [eraseEntry, keysOf, keysOf]
  exact (List.filter_sublist m).map _

theorem nodup_keys_stripFacets (isVideosPage : Bool)
    (facets : List (String × AggValue)) (h : (keysOf facets).Nodup) :
    (keysOf (stripFacets isVideosPage facets)).Nodup := by
  rw [stripFacets]
  repeat' split
  all_goals first
  | exact h
  | exact nodup_keys_eraseEntry facets _ h
  | exact nodup_keys_setEntry facets _ _ h

/-! ### Decomposition of parse -/

theorem parse_eq (isVideosPage : Bool) (st : DiscoveryState) (resp : Response) :
    parse isVideosPage st resp =
      match mergeFacets (pageFacets isVideosPage resp) (pageTally isVideosPage resp) with
      | .error _ => (parseBase isVideosPage st resp, true)
      | .ok m =>
        ({ parseBase isVideosPage st resp with
            facetOptions := addOptions st.facetOptions m }, false) :=
  rfl

theorem parse_fst_counts (isVideosPage : Bool) (st : DiscoveryState) (resp : Response) :
    (parse isVideosPage st resp).1.totalCount = (pageCourses isVideosPage resp).length ∧
    (parse isVideosPage st resp).1.latestCount = (pageCourses isVideosPage resp).length ∧
    (parse isVideosPage st resp).1.courseCards =
      st.courseCards ++ (pageCourses isVideosPage resp).map Course.data := by
  rw [parse_eq]
  cases mergeFacets (pageFacets isVideosPage resp) (pageTally isVideosPage resp) with
  | error e => exact ⟨rfl, rfl, rfl⟩
  | ok m => exact ⟨rfl, rfl, rfl⟩

theorem parse_options_ok (isVideosPage : Bool) (st : DiscoveryState) (resp : Response)
    (m : List (String × AggValue))
    (hok : mergeFacets (pageFacets isVideosPage resp) (pageTally isVideosPage resp) = .ok m) :
    (parse isVideosPage st resp).1.facetOptions = addOptions st.facetOptions m ∧
    (parse isVideosPage st resp).2 = false := by
  rw [parse_eq, hok]
  exact ⟨rfl, rfl⟩

theorem parse_options_error (isVideosPage : Bool) (st : DiscoveryState) (resp : Response)
    (e : Unit)
    (herr : mergeFacets (pageFacets isVideosPage resp) (pageTally isVideosPage resp) = .error e) :
    (parse isVideosPage st resp).1.facetOptions = st.facetOptions ∧
    (parse isVideosPage st resp).2 = true := by
  rw [parse_eq, herr]
  exact ⟨rfl, rfl⟩

theorem parse_ok_of_flag (isVideosPage : Bool) (st : DiscoveryState) (resp : Response)
    (hflag : (parse isVideosPage st resp).2 = false) :
    ∃ m, mergeFacets (pageFacets isVideosPage resp) (pageTally isVideosPage resp) = .ok m := by
  cases hm : mergeFacets (pageFacets isVideosPage resp) (pageTally isVideosPage resp) with
  | error e =>
    rw [(parse_options_error isVideosPage st resp e hm).2] at hflag
    cases hflag
  | ok m => exact ⟨m, rfl⟩

/-! ### Lemmas about the filter set -/

theorem filterSet_get_add_merge (fs : FilterSet) (term : FilterTerm) :
    FilterSet.get (fs.add term true) term.type = some term := by
  induction fs with
  | nil => simp [FilterSet.add, FilterSet.get, List.find?]
  | cons p rest ih =>
    rw [FilterSet.add]
    by_cases hp : p.type = term.type
    · rw [if_pos hp, if_pos rfl]
      simp [FilterSet.get, List.find?]
    · rw [if_neg hp]
      simpa [FilterSet.get, List.find?, hp] using ih

theorem filterSet_get_add_new (fs : FilterSet) (term : FilterTerm)
    (h : fs.get term.type = none) (merge : Bool) :
    FilterSet.get (fs.add term merge) term.type = some term := by
  induction fs with
  | nil => simp [FilterSet.add, FilterSet.get, List.find?]
  | cons p rest ih =>
    rw [FilterSet.get] at h
    by_cases hp : p.type = term.type
    · rw [List.find?] at h
      simp only [hp, decide_eq_true_eq, if_pos] at h
      cases h
    · rw [List.find?] at h
      simp only [decide_eq_true_eq, hp, if_neg, if_false] at h
      rw [FilterSet.add, if_neg hp]
      simpa [FilterSet.get, List.find?, hp] using ih h

theorem filterSet_add_append (fs : FilterSet) (term : FilterTerm) (merge : Bool)
    (h : fs.get term.type = none) : fs.add term merge = fs ++ [term] := by
  induction fs with
  | nil => simp [FilterSet.add]
  | cons p rest ih =>
    rw [FilterSet.get] at h
    by_cases hp : p.type = term.type
    · rw [List.find?] at h
      simp only [hp, decide_eq_true_eq, if_pos] at h
      cases h
    · rw [List.find?] at h
      simp only [decide_eq_true_eq, hp, if_neg, if_false] at h
      rw [FilterSet.add, if_neg hp, List.cons_append]
      exact congrArg (fun l => p :: l) (ih h)

theorem filterSet_mem_remove (fs : FilterSet) (t : String) (term : FilterTerm)
    (h : term ∈ fs.remove t) : term.type ≠ t := by
  rw [FilterSet.remove] at h
  have := List.of_mem_filter h
  simpa using this

theorem filterSet_get_remove (fs : FilterSet) (t : String) :
    FilterSet.get (fs.remove t) t = none := by
  rw [FilterSet.get, List.find?_eq_none]
  intro x hx
  have hne := filterSet_mem_remove fs t x hx
  simp [hne]

/-! ### Claim theorems -/

/-- C9: after every call to parse the totalCount of the model equals its
latestCount, both being the number of page documents that survive the
page-local predicate. -/
theorem C9_total_eq_latest (isVideosPage : Bool) (st : DiscoveryState) (resp : Response) :
    (parse isVideosPage st resp).1.totalCount = (parse isVideosPage st resp).1.latestCount ∧
    (parse isVideosPage st resp).1.latestCount =
      ((resp.results.getD []).filter (pagePred isVideosPage)).length := by
  obtain ⟨h1, h2, _⟩ := parse_fst_counts isVideosPage st resp
  exact ⟨h1.trans h2.symm, h2⟩

/-- C1 counterexample: on a page of two raw documents of which the
predicate removes one, parse sets totalCount to 1, the post-predicate
survivor count, and not to the raw server count 2. -/
theorem C1_counterexample :
    (respC1.results.getD []).length = 2 ∧
    ((respC1.results.getD []).filter (pagePred false)).length = 1 ∧
    (parse false st0 respC1).1.totalCount = 1 := by
  decide

/-- C1 amended: after every page fetch the merge sets totalCount to the
post-predicate survivor count of the page, the same value as
latestCount, not to the raw server result count. -/
theorem C1_amended_total_is_survivors (isVideosPage : Bool) (st : DiscoveryState)
    (resp : Response) :
    (parse isVideosPage st resp).1.totalCount =
      ((resp.results.getD []).filter (pagePred isVideosPage)).length := by
  obtain ⟨h1, _, _⟩ := parse_fst_counts isVideosPage st resp
  exact h1

/-- C2 counterexample: in the scenario page with server count 2 for
subject cs and one surviving cs document, the merge produces the option
count 3, not the recomputed count 1 the claim states. -/
theorem C2_counterexample :
    (parse false st0 respC2).1.latestCount = 1 ∧
    (parse false st0 respC2).1.courseCards = [docPlain.data] ∧
    (parse false st0 respC2).1.facetOptions ≠ [⟨"subject", "cs", 1⟩] := by
  decide

/-- C2 amended: the scenario yields latestCount 1, only the non-video
document in courseCards, and exactly the option subject cs with count 3,
the server count 2 plus the count 1 recomputed from the one surviving
document. -/
theorem C2_amended_scenario :
    (parse false st0 respC2).1.latestCount = 1 ∧
    (parse false st0 respC2).1.courseCards = [docPlain.data] ∧
    (parse false st0 respC2).1.facetOptions = [⟨"subject", "cs", 3⟩] := by
  decide

/-- C5: within every merged facet category the facet options are
produced for insertion in ascending lexicographic order of their term
values, whatever the order of terms in the server aggregation or in the
documents. -/
theorem C5_sorted_category_adds (kv : String × AggValue) :
    ((categoryAdds kv).map FacetOption.term).Sorted (· ≤ ·) := by
  rw [categoryAdds, List.map_map]
  have hid : (FacetOption.term ∘ fun t =>
      (⟨kv.1, t, cnt (termsOf kv.2) t⟩ : FacetOption)) = id := rfl
  rw [hid, List.map_id]
  exact sorted_sortKeys _

/-- C8 counterexample: a malformed truthy aggregation value under a
category with a nonempty local tally makes parse raise a TypeError, so a
malformed aggregation payload is not treated as the empty mapping and
the case is not error free. -/
theorem C8_counterexample :
    (parse false st0 respC8).2 = true ∧
    (parse false st0 respC8).1.facetOptions = [] := by
  decide

/-- C8 amended: a missing or falsy aggregation payload is treated as the
empty mapping; the merge then proceeds, never raises, and leaves the
facet options untouched since the local tally ranges over the server
categories only.  A malformed truthy value inside a present aggregation
is instead used as is and raises a TypeError as soon as the local tally
of its category is nonempty. -/
theorem C8_amended_missing_aggs (isVideosPage : Bool) (st : DiscoveryState)
    (results : Option (List Course)) :
    parse isVideosPage st ⟨results, none⟩ = parse isVideosPage st ⟨results, some []⟩ ∧
    (parse isVideosPage st ⟨results, none⟩).2 = false ∧
    (parse isVideosPage st ⟨results, none⟩).1.facetOptions = st.facetOptions := by
  have hfacets : pageFacets isVideosPage ⟨results, none⟩ = [] := by
    rw [pageFacets]
    cases isVideosPage <;> rfl
  have hfacets2 : pageFacets isVideosPage ⟨results, some []⟩ = [] := by
    rw [pageFacets]
    cases isVideosPage <;> rfl
  have htally : ∀ cs : List Course,
      tallyAll ([] : List String) cs = [] := by
    intro cs
    rw [tallyAll]
    induction cs with
    | nil => rfl
    | cons c rest ih => exact ih
  constructor
  · rw [parse_eq, parse_eq, hfacets, hfacets2]
    rfl
  · rw [parse_eq]
    rw [show pageTally isVideosPage ⟨results, none⟩ = [] by
      rw [pageTally, hfacets]
      exact htally _]
    rw [hfacets]
    exact ⟨rfl, rfl⟩

/-- C10 counterexample: an array attribute holding the falsy element
empty string still increments the tally of that element, so a tallied
count is not always the number of truthy occurrences. -/
theorem C10_counterexample :
    tallyCnt (tallyAll ["subject"] [docArr]) "subject" "" = 1 ∧
    specTruthyOccurrences docArr.data "subject" "" = 0 := by
  decide

/-- C10 amended: in the local tally an absent or falsy attribute
contributes nothing, a truthy scalar contributes one occurrence, and an
array contributes one increment per matching element regardless of the
truthiness of the element; every tallied count is the sum of these
contributions across the tallied documents. -/
theorem C10_amended_tally_counts (fts : List String) (courses : List Course)
    (ft t : String) (hnd : fts.Nodup) (h : ft ∈ fts) :
    tallyCnt (tallyAll fts courses) ft t =
      (courses.map (fun c => docContrib c.data ft t)).sum :=
  tallyCnt_tallyAll fts courses ft t hnd h

/-- C10 amended witness: the amended characterization evaluated on the
array document. -/
theorem C10_amended_witness :
    tallyCnt (tallyAll ["subject"] [docArr]) "subject" "" =
      ([docArr].map (fun c => docContrib c.data "subject" "")).sum :=
  C10_amended_tally_counts ["subject"] [docArr] "subject" "" (by decide) (by decide)

/-- C4: in the merge loop a category of the local tally absent from the
server aggregation is synthesized from the tally with total the sum of
its term counts and other zero; for a category present in both, every
term count of the merged entry is the server count plus the local count,
terms unknown to the server entering with the local count. -/
theorem C4_merge_rule (fs : List (String × AggValue))
    (allF : List (String × List (String × Nat))) (m : List (String × AggValue))
    (ft : String) (values : List (String × Nat))
    (hnd : (allF.map (·.1)).Nodup) (hndV : (keysOf values).Nodup)
    (hok : mergeFacets fs allF = .ok m) (hmem : (ft, values) ∈ allF) :
    (lookup fs ft = none →
      lookup m ft = some (.entry ⟨values, sumCounts values, 0⟩)) ∧
    (∀ e : FacetEntry, lookup fs ft = some (.entry e) →
      ∃ e2 : FacetEntry, lookup m ft = some (.entry e2) ∧
        e2.total = e.total ∧ e2.other = e.other ∧
        ∀ t : String, cnt e2.terms t = cnt e.terms t + cnt values t) := by
  have hchar := mergeFacets_ok_mem allF fs m ft values hnd hok hmem
  constructor
  · intro h0
    rw [h0] at hchar
    exact hchar
  · intro e he
    rw [he] at hchar
    refine ⟨{ e with terms := mergeTerms e.terms values }, hchar, rfl, rfl, ?_⟩
    intro t
    have hl := lookup_mergeTerms values e.terms t hndV
    simp only [cnt]
    cases hlv : lookup values t with
    | none =>
      simp only [hlv] at hl
      rw [hl]
      simp
    | some c =>
      simp only [hlv] at hl
      rw [hl]
      simp

/-- C4 witness: the synthesized branch evaluated for a tally category
the server aggregation lacks. -/
theorem C4_witness :
    lookup [("subject", AggValue.entry ⟨[("cs", 1)], 1, 0⟩)] "subject" =
      some (.entry ⟨[("cs", 1)], sumCounts [("cs", 1)], 0⟩) :=
  (C4_merge_rule [] [("subject", [("cs", 1)])]
    [("subject", .entry ⟨[("cs", 1)], 1, 0⟩)] "subject" [("cs", 1)]
    (by decide) (by decide) (by rfl) (by decide)).1 (by rfl)

/-- C3 counterexample: merging the same page twice leaves the subject cs
option at count 6 (that page server count 5 plus its tally 1, written
again), while the sum of cs occurrences across the surviving documents
of the two pages is 2. -/
theorem C3_counterexample :
    optLookup (parse false (parse false st0 respC3).1 respC3).1.facetOptions
      "subject" "cs" = some 6 ∧
    ((pageCourses false respC3).map (fun c => docContrib c.data "subject" "cs")).sum +
      ((pageCourses false respC3).map (fun c => docContrib c.data "subject" "cs")).sum = 2 ∧
    (6 : Nat) ≠ 2 := by
  decide

/-- C3 amended: facet options are never removed by a merge, only reset
clears them; and counts are not additive across pages: the count a
successful merge leaves for a term of a category present in the stripped
server aggregation of the page is the server count of that page plus the
local tally of that page alone, independent of whatever options had
accumulated before (in particular of a previously merged page). -/
theorem C3_amended_overwrite (isVideosPage : Bool) (st : DiscoveryState)
    (resp : Response) (f t : String) (e : FacetEntry)
    (hnd : (keysOf (resp.aggs.getD [])).Nodup)
    (hf : lookup (pageFacets isVideosPage resp) f = some (.entry e))
    (hndT : (keysOf e.terms).Nodup)
    (ht : t ∈ keysOf e.terms ∨ 0 < tallyCnt (pageTally isVideosPage resp) f t)
    (hflag : (parse isVideosPage st resp).2 = false) :
    optLookup (parse isVideosPage st resp).1.facetOptions f t =
      some (cnt e.terms t + tallyCnt (pageTally isVideosPage resp) f t) ∧
    (∀ p ∈ st.facetOptions, ∃ q ∈ (parse isVideosPage st resp).1.facetOptions,
      q.facet = p.facet ∧ q.term = p.term) ∧
    (DiscoveryState.reset st).facetOptions = [] := by
  obtain ⟨m, hok⟩ := parse_ok_of_flag isVideosPage st resp hflag
  obtain ⟨hopts, _⟩ := parse_options_ok isVideosPage st resp m hok
  have hndF : (keysOf (pageFacets isVideosPage resp)).Nodup :=
    nodup_keys_stripFacets isVideosPage _ hnd
  have hkeysT : keysOf (pageTally isVideosPage resp) =
      keysOf (pageFacets isVideosPage resp) := keysOf_tallyAll _ _
  have hfmem : f ∈ keysOf (pageTally isVideosPage resp) := by
    rw [hkeysT]
    exact mem_keysOf_of_lookup _ f _ hf
  obtain ⟨values, hv⟩ := lookup_isSome_of_mem _ f hfmem
  have hvmem : (f, values) ∈ pageTally isVideosPage resp := lookup_mem _ f values hv
  have hndAll : ((pageTally isVideosPage resp).map (·.1)).Nodup := by
    rw [show (pageTally isVideosPage resp).map (·.1) =
        keysOf (pageTally isVideosPage resp) from rfl, hkeysT]
    exact hndF
  have hndV : (keysOf values).Nodup :=
    tallyWF_tallyAll (keysOf (pageFacets isVideosPage resp))
      (pageCourses isVideosPage resp) (f, values) hvmem
  have hchar := mergeFacets_ok_mem _ _ m f values hndAll hok hvmem
  rw [hf] at hchar
  have htc : tallyCnt (pageTally isVideosPage resp) f t = cnt values t := by
    rw [tallyCnt, hv]
    rfl
  have htmem : t ∈ keysOf (mergeTerms e.terms values) := by
    apply mem_keys_mergeTerms _ _ t hndV
    rcases ht with h1 | h1
    · exact Or.inl h1
    · right
      rw [htc] at h1
      cases hlv : lookup values t with
      | none =>
        rw [cnt, hlv] at h1
        simp at h1
      | some c => exact mem_keysOf_of_lookup _ t c hlv
  have hndM : (keysOf m).Nodup := nodup_keys_mergeFacets _ _ m hok hndF
  have hmemM : (f, AggValue.entry { e with terms := mergeTerms e.terms values }) ∈ m :=
    lookup_mem _ f _ hchar
  have hndTM : (keysOf (mergeTerms e.terms values)).Nodup :=
    nodup_keys_mergeTerms _ _ hndT
  have hlook := optLookup_addOptions st.facetOptions m f t
    (AggValue.entry { e with terms := mergeTerms e.terms values })
    hndM hmemM htmem hndTM
  refine ⟨?_, ?_, rfl⟩
  · rw [hopts, hlook, htc]
    have hl := lookup_mergeTerms values e.terms t hndV
    simp only [termsOf, cnt]
    cases hlv : lookup values t with
    | none =>
      simp only [hlv] at hl
      rw [hl]
      simp
    | some c =>
      simp only [hlv] at hl
      rw [hl]
      simp
  · intro p hp
    rw [hopts]
    exact key_surv_addOptions m st.facetOptions p hp

/-- C3 amended witness: the amended count evaluated on the second of two
identical pages. -/
theorem C3_amended_witness :
    optLookup (parse false (parse false st0 respC3).1 respC3).1.facetOptions
      "subject" "cs" =
      some (cnt (FacetEntry.mk [("cs", 5)] 5 0).terms "cs" +
        tallyCnt (pageTally false respC3) "subject" "cs") :=
  (C3_amended_overwrite false (parse false st0 respC3).1 respC3 "subject" "cs"
    ⟨[("cs", 5)], 5, 0⟩ (by decide) (by decide) (by decide)
    (Or.inl (by decide)) (by decide)).1

/-- C6: on the search event, a positive total shows the found message
and, when a nonempty free-text query is active, upserts (add with merge)
the synthetic search_query filter labeled with the query in double
quotes; a zero total shows the not-found message and empties the filter
set; the loading indicator is hidden on both paths. -/
theorem C6_search_event (st : CoordState) (q : String) (total : Nat) :
    (total > 0 →
      (onSearchEvent st q total).message = .found total ∧
      (q ≠ "" →
        (onSearchEvent st q total).filters =
          st.filters.add ⟨"search_query", q, quote q⟩ true ∧
        FilterSet.get (onSearchEvent st q total).filters "search_query" =
          some ⟨"search_query", q, quote q⟩) ∧
      (q = "" → (onSearchEvent st q total).filters = st.filters)) ∧
    (total = 0 →
      (onSearchEvent st q total).message = .notFound q ∧
      (onSearchEvent st q total).filters = []) ∧
    (onSearchEvent st q total).loading = false := by
  refine ⟨?_, ?_, ?_⟩
  · intro hpos
    by_cases hq : q ≠ ""
    · refine ⟨?_, fun _ => ⟨?_, ?_⟩, fun hq0 => absurd hq0 hq⟩
      · show (onSearchEvent st q total).message = .found total
        simp [onSearchEvent, hpos, hq]
      · show (onSearchEvent st q total).filters =
          st.filters.add ⟨"search_query", q, quote q⟩ true
        simp [onSearchEvent, hpos, hq]
      · show FilterSet.get (onSearchEvent st q total).filters "search_query" =
          some ⟨"search_query", q, quote q⟩
        have hred : (onSearchEvent st q total).filters =
            st.filters.add ⟨"search_query", q, quote q⟩ true := by
          simp [onSearchEvent, hpos, hq]
        rw [hred]
        exact filterSet_get_add_merge st.filters ⟨"search_query", q, quote q⟩
    · refine ⟨?_, fun hq2 => absurd hq2 hq, fun _ => ?_⟩
      · show (onSearchEvent st q total).message = .found total
        simp [onSearchEvent, hpos, hq]
      · show (onSearchEvent st q total).filters = st.filters
        simp [onSearchEvent, hpos, hq]
  · intro h0
    have hnpos : ¬ total > 0 := by omega
    constructor
    · show (onSearchEvent st q total).message = .notFound q
      simp [onSearchEvent, hnpos]
    · show (onSearchEvent st q total).filters = []
      simp [onSearchEvent, hnpos]
  · show (onSearchEvent st q total).loading = false
    by_cases hpos : total > 0
    · by_cases hq : q ≠ ""
      · simp [onSearchEvent, hpos, hq]
      · simp [onSearchEvent, hpos, hq]
    · simp [onSearchEvent, hpos]

/-- C6 witness: the found path with an active query and the not-found
path with zero total, evaluated on concrete coordinator states. -/
theorem C6_witness :
    (onSearchEvent ⟨[], .noMsg, true⟩ "python" 3).message = .found 3 ∧
    FilterSet.get (onSearchEvent ⟨[], .noMsg, true⟩ "python" 3).filters
      "search_query" = some ⟨"search_query", "python", quote "python"⟩ ∧
    (onSearchEvent ⟨[⟨"subject", "cs", "CS"⟩], .noMsg, true⟩ "np" 0).filters = [] ∧
    (onSearchEvent ⟨[], .noMsg, true⟩ "python" 3).loading = false :=
  ⟨((C6_search_event ⟨[], .noMsg, true⟩ "python" 3).1 (by decide)).1,
   (((C6_search_event ⟨[], .noMsg, true⟩ "python" 3).1 (by decide)).2.1 (by decide)).2,
   ((C6_search_event ⟨[⟨"subject", "cs", "CS"⟩], .noMsg, true⟩ "np" 0).2.1 rfl).2,
   (C6_search_event ⟨[], .noMsg, true⟩ "python" 3).2.2⟩

/-- C7: selecting a refinement option whose category is already active
behaves as removing that filter followed by a re-search whose term list
excludes the category; selecting an inactive one appends the term and
issues a refine search with the updated term list, which includes it. -/
theorem C7_refinement_select (st : CoordState) (type query name : String) :
    ((st.filters.get type).isSome →
      handleQueryParams st type query name =
        removeFilter { st with loading := true } type ∧
      (handleQueryParams st type query name).1.filters = st.filters.remove type ∧
      FilterSet.get (handleQueryParams st type query name).1.filters type = none ∧
      ((handleQueryParams st type query name).2 = .doSearch "" ∨
        (handleQueryParams st type query name).2 =
          .refineSearch ((st.filters.remove type).getTerms)) ∧
      (∀ term ∈ (st.filters.remove type).getTerms, term.type ≠ type)) ∧
    (st.filters.get type = none →
      (handleQueryParams st type query name).1.filters =
        st.filters ++ [⟨type, query, name⟩] ∧
      (handleQueryParams st type query name).2 =
        .refineSearch ((st.filters.add ⟨type, query, name⟩ false).getTerms) ∧
      FilterSet.get (handleQueryParams st type query name).1.filters type =
        some ⟨type, query, name⟩) := by
  constructor
  · intro hsome
    cases hget : st.filters.get type with
    | none =>
      rw [hget] at hsome
      cases hsome
    | some term0 =>
      have heq : handleQueryParams st type query name =
          removeFilter { st with loading := true } type := by
        simp only [handleQueryParams, hget]
      refine ⟨heq, ?_, ?_, ?_, ?_⟩
      · rw [heq, removeFilter]
        by_cases hsq : type = "search_query"
        · rw [if_pos hsq]
        · rw [if_neg hsq]
      · rw [heq, removeFilter]
        by_cases hsq : type = "search_query"
        · rw [if_pos hsq]
          exact filterSet_get_remove st.filters type
        · rw [if_neg hsq]
          exact filterSet_get_remove st.filters type
      · rw [heq, removeFilter]
        by_cases hsq : type = "search_query"
        · rw [if_pos hsq]
          exact Or.inl rfl
        · rw [if_neg hsq]
          exact Or.inr rfl
      · intro term hterm
        exact filterSet_mem_remove st.filters type term hterm
  · intro hget
    have heq : handleQueryParams st type query name =
        ({ filters := st.filters.add ⟨type, query, name⟩ false,
           message := st.message, loading := true },
          .refineSearch ((st.filters.add ⟨type, query, name⟩ false).getTerms)) := by
      simp only [handleQueryParams, hget]
    refine ⟨?_, ?_, ?_⟩
    · rw [heq]
      exact filterSet_add_append st.filters ⟨type, query, name⟩ false hget
    · rw [heq]
    · rw [heq]
      exact filterSet_get_add_new st.filters ⟨type, query, name⟩ hget false

/-- C7 witness: one selection on an inactive category and one on an
active category, evaluated on concrete filter sets. -/
theorem C7_witness :
    FilterSet.get (handleQueryParams ⟨[], .noMsg, false⟩ "subject" "cs"
      "Computer Science").1.filters "subject" =
      some ⟨"subject", "cs", "Computer Science"⟩ ∧
    FilterSet.get (handleQueryParams
      ⟨[⟨"subject", "cs", "Computer Science"⟩], .noMsg, false⟩ "subject" "cs"
      "Computer Science").1.filters "subject" = none :=
  ⟨((C7_refinement_select ⟨[], .noMsg, false⟩ "subject" "cs"
      "Computer Science").2 (by decide)).2.2,
   ((C7_refinement_select ⟨[⟨"subject", "cs", "Computer Science"⟩], .noMsg, false⟩
      "subject" "cs" "Computer Science").1 (by decide)).2.2.1⟩

end Discovery
